import Mathlib

/-!
Verification of the steady-state Lindblad master-equation solver in
LindbladMasterEq.py.  The definitions below are a shallow embedding of the
data model and operations of that file: matrices are total functions on
natural-number indices (zero outside the populated block), machine floats
become real numbers, and code that raises an exception returns Option or
Except.  Line references in the doc comments point into LindbladMasterEq.py.
-/

namespace LME

/-- Planck constant, the value of scipy.constants.h used at line 432. -/
noncomputable def hPlanck : ℝ := 6.62607015e-34

/-- Vacuum permittivity, scipy.constants.epsilon_0 (lines 85, 90, 590). -/
noncomputable def eps0 : ℝ := 8.8541878128e-12

/-- Speed of light, scipy.constants.c (lines 85, 90, 571, 613). -/
noncomputable def cLight : ℝ := 299792458.0

/-- Boltzmann constant, scipy.constants.k (line 535). -/
noncomputable def kB : ℝ := 1.380649e-23

/-! ## Density-matrix coordinate ordering (matrix2list, lines 551-562) -/

/-- Python range(a, b) as a list of naturals. -/
def pyrange (a b : ℕ) : List ℕ := (List.range (b - a)).map (a + ·)

/-- Index pairs (i, j) with i < j < N, in the order in which the double loop
    of matrix2list (for i in range(N): for j in range(i+1, N)) visits them. -/
def upperPairs (N : ℕ) : List (ℕ × ℕ) :=
  (List.range N).flatMap fun i => (pyrange (i + 1) N).map fun j => (i, j)

/-- matrix2list of atomicSystem (lines 551-562): the diagonal entries first,
    then the upper half m[i,j] with i < j, then the lower half m[j,i] in the
    same pair order. -/
def matrix2list {α : Type} (N : ℕ) (m : ℕ → ℕ → α) : List α :=
  ((List.range N).map fun i => m i i)
    ++ (upperPairs N).map (fun p => m p.1 p.2)
    ++ (upperPairs N).map (fun p => m p.2 p.1)

/-- The (row, column) index of the density matrix that each coordinate of the
    flattened unknown vector r_list (line 507) refers to. -/
def entryList (N : ℕ) : List (ℕ × ℕ) := matrix2list N fun i j => (i, j)

/-- Row-major order in which sympy reads the N x N matrix of equations that
    generate_linear_system passes to linear_eq_to_matrix (line 525). -/
def rowList (N : ℕ) : List (ℕ × ℕ) :=
  (List.range N).flatMap fun i => (List.range N).map fun j => (i, j)

/-! ## System configuration and rate matrices (initSystemProperties /
     generateMatrices, lines 309-504) -/

/-- Collision model selector, p_dict entry collisions (lines 488-504). -/
inductive Collisions where
  | decay : Collisions
  | dephase : Collisions

/-- Numeric data of one atomicSystem after initSystemProperties: the sublevel
    counts n[0], n[1] of the ground and excited manifolds, the level energies
    energySeparation, the polarization-weighted dipole matrix elements dme
    (a ng x ne block), the decay-rate block Gammas (ng x ne), the transit
    time, the buffer-gas rate GammaBuf and the isotope abundance. -/
structure Config where
  ng : ℕ
  ne : ℕ
  energySepG : ℕ → ℝ
  energySepE : ℕ → ℝ
  dme : ℕ → ℕ → ℝ
  Gammas : ℕ → ℕ → ℝ
  transit_time : ℝ
  GammaBuf : ℝ
  abundance : ℝ

namespace Config

/-- Total number of sublevels (total_levels, line 317). -/
def N (cfg : Config) : ℕ := cfg.ng + cfg.ne

end Config

/-- Upper (ground-row, excited-column) block of the Rabi Hamiltonian before
    symmetrization: H_rabi[slices[0], slices[1]] = 0.5e-6 / h * dme * Efield
    (line 432). -/
noncomputable def H_rabi_half (cfg : Config) (E : ℝ) (i j : ℕ) : ℝ :=
  if i < cfg.ng ∧ cfg.ng ≤ j ∧ j < cfg.N then
    0.5e-6 / hPlanck * cfg.dme i (j - cfg.ng) * E
  else 0

/-- Symmetrized Rabi Hamiltonian: H_rabi = H_rabi + H_rabi.transpose
    (line 433). -/
noncomputable def H_rabi (cfg : Config) (E : ℝ) (i j : ℕ) : ℝ :=
  H_rabi_half cfg E i j + H_rabi_half cfg E j i

/-- Detuning vector, np.concatenate([-energySeparation[0],
    wL - energySeparation[1]]) (line 435). -/
noncomputable def detunings (cfg : Config) (wL : ℝ) (i : ℕ) : ℝ :=
  if i < cfg.ng then -(cfg.energySepG i)
  else if i < cfg.N then wL - cfg.energySepE (i - cfg.ng)
  else 0

/-- Diagonal energy-level Hamiltonian, sy.diag(*detunings) (line 436). -/
noncomputable def H_energylevels (cfg : Config) (wL : ℝ) (i j : ℕ) : ℝ :=
  if i = j then detunings cfg wL i else 0

/-- Full Hamiltonian H = H_rabi + H_energylevels (line 437). -/
noncomputable def Hmat (cfg : Config) (wL E : ℝ) (i j : ℕ) : ℝ :=
  H_rabi cfg E i j + H_energylevels cfg wL i j

/-- Spontaneous-decay rate matrix: g_dec[slices[1], slices[0]] = Gammas.T
    (line 468), zero elsewhere. -/
noncomputable def g_dec (cfg : Config) (i j : ℕ) : ℝ :=
  if cfg.ng ≤ i ∧ i < cfg.N ∧ j < cfg.ng then cfg.Gammas j (i - cfg.ng) else 0

/-- Numeric transit-time rate matrix (lines 471-473): the ground-to-ground
    block and the excited-to-ground block are both set to
    1 / transit_time / n[0] / 2. -/
noncomputable def g_transit (cfg : Config) (i j : ℕ) : ℝ :=
  if (i < cfg.ng ∧ j < cfg.ng) ∨ (cfg.ng ≤ i ∧ i < cfg.N ∧ j < cfg.ng) then
    1 / cfg.transit_time / (cfg.ng : ℝ) / 2
  else 0

/-- Symbolic-transit build of the transit-time rate matrix (lines 474-478):
    the same two blocks, with the late-bound variable tau_t in place of the
    numeric transit time. -/
noncomputable def g_transit_symbolic (cfg : Config) (tau : ℝ) (i j : ℕ) : ℝ :=
  if (i < cfg.ng ∧ j < cfg.ng) ∨ (cfg.ng ≤ i ∧ i < cfg.N ∧ j < cfg.ng) then
    1 / tau / (cfg.ng : ℝ) / 2
  else 0

/-- Collisional rate matrix for the decay model:
    g_col[slices[1], slices[0]] = GammaBuf / n[0] (line 494). -/
noncomputable def g_col_decay (cfg : Config) (i j : ℕ) : ℝ :=
  if cfg.ng ≤ i ∧ i < cfg.N ∧ j < cfg.ng then cfg.GammaBuf / (cfg.ng : ℝ) else 0

/-- Collisional rate matrix for the dephase model: both off-manifold blocks
    set to GammaBuf (lines 500-501). -/
noncomputable def g_col_dephase (cfg : Config) (i j : ℕ) : ℝ :=
  if (cfg.ng ≤ i ∧ i < cfg.N ∧ j < cfg.ng) ∨ (i < cfg.ng ∧ cfg.ng ≤ j ∧ j < cfg.N) then
    cfg.GammaBuf
  else 0

/-! ## Lindblad superoperators (lines 440-460) -/

/-- Lindblad_decay (lines 440-452).  The Python double loop accumulates, for
    every index pair (i, j), the gain term rates[j,i] x_jj - rates[i,j] x_ii
    into cell (i, i) and, when i is not j, subtracts
    0.5 (rates[i,k] + rates[j,k]) x_ij from cell (i, j) for every k; the
    definition records exactly these per-iteration contributions. -/
noncomputable def Lindblad_decay (Ntot : ℕ) (rates : ℕ → ℕ → ℝ) (r : ℕ → ℕ → ℂ)
    (a b : ℕ) : ℂ :=
  ∑ i in Finset.range Ntot, ∑ j in Finset.range Ntot,
    ((if a = i ∧ b = i then (rates j i : ℂ) * r j j - (rates i j : ℂ) * r i i else 0)
      + if i ≠ j ∧ a = i ∧ b = j then
          -(∑ k in Finset.range Ntot, (1 / 2 : ℂ) * ((rates i k : ℂ) + (rates j k : ℂ)) * r i j)
        else 0)

/-- Lindblad_dephase (lines 454-460): for every off-diagonal pair (i, j) the
    loop subtracts 0.5 rates[i,j] x_ij from cell (i, j). -/
noncomputable def Lindblad_dephase (Ntot : ℕ) (rates : ℕ → ℕ → ℝ) (r : ℕ → ℕ → ℂ)
    (a b : ℕ) : ℂ :=
  ∑ i in Finset.range Ntot, ∑ j in Finset.range Ntot,
    if i ≠ j ∧ a = i ∧ b = j then -((1 / 2 : ℂ) * (rates i j : ℂ) * r i j) else 0

/-- Commutator part of the master equation, H*r - r*H with the matrix product
    expanded over the Ntot populated indices (lines 496, 504). -/
noncomputable def commutatorH (Ntot : ℕ) (H : ℕ → ℕ → ℝ) (r : ℕ → ℕ → ℂ) (i j : ℕ) : ℂ :=
  (∑ k in Finset.range Ntot, (H i k : ℂ) * r k j)
    - ∑ k in Finset.range Ntot, r i k * (H k j : ℂ)

/-- The master equation of generateMatrices (lines 491-504):
    -I (H r - r H) - Lindblad terms, with the collision model selecting either
    the decay-like collisional rates folded into Lindblad_decay or a separate
    Lindblad_dephase term. -/
noncomputable def master_equation (cfg : Config) (col : Collisions) (wL E : ℝ)
    (r : ℕ → ℕ → ℂ) (i j : ℕ) : ℂ :=
  match col with
  | Collisions.decay =>
      -Complex.I * commutatorH cfg.N (Hmat cfg wL E) r i j
        - Lindblad_decay cfg.N
            (fun a b => g_dec cfg a b + g_transit cfg a b + g_col_decay cfg a b) r i j
  | Collisions.dephase =>
      -Complex.I * commutatorH cfg.N (Hmat cfg wL E) r i j
        - Lindblad_decay cfg.N (fun a b => g_dec cfg a b + g_transit cfg a b) r i j
        - Lindblad_dephase cfg.N (g_col_dephase cfg) r i j

/-- system_matrix (lines 218-222): the master equation with its first entry
    (flat index 0, that is entry (0,0)) overwritten by the trace constraint
    -1 + trace(r). -/
noncomputable def system_matrix (cfg : Config) (col : Collisions) (wL E : ℝ)
    (r : ℕ → ℕ → ℂ) (i j : ℕ) : ℂ :=
  if i = 0 ∧ j = 0 then -1 + ∑ k in Finset.range cfg.N, r k k
  else master_equation cfg col wL E r i j

/-- Density-matrix basis element: 1 at entry (p, q) and 0 elsewhere. -/
def unitRho (p q : ℕ) : ℕ → ℕ → ℂ := fun i j => if i = p ∧ j = q then 1 else 0

/-- Coefficient matrix A of generate_linear_system (line 525): sympy's
    linear_eq_to_matrix reads the N x N system of equations row-major and
    extracts, for each equation, the coefficient of each unknown of r_list;
    for the linear system at hand the coefficient of unknown cp in equation
    rp is eq(basis at cp) - eq(0). -/
noncomputable def Amat (cfg : Config) (col : Collisions) (wL E : ℝ) :
    Matrix (Fin (cfg.N * cfg.N)) (Fin (cfg.N * cfg.N)) ℂ :=
  fun r c =>
    system_matrix cfg col wL E
        (unitRho ((entryList cfg.N).getD c.val (0, 0)).1
          ((entryList cfg.N).getD c.val (0, 0)).2)
        ((rowList cfg.N).getD r.val (0, 0)).1 ((rowList cfg.N).getD r.val (0, 0)).2
      - system_matrix cfg col wL E (fun _ _ => 0)
          ((rowList cfg.N).getD r.val (0, 0)).1 ((rowList cfg.N).getD r.val (0, 0)).2

/-- Vector b of generate_linear_system (lines 530-531): zeros with the first
    entry set to one. -/
def bvec (n : ℕ) : Fin n → ℂ := fun r => if r.val = 0 then 1 else 0

/-! ## Beam parameterization (class beam, lines 54-94) -/

namespace beam

/-- setP (lines 75-85): stores P and derives the field amplitude E from the
    intensity of the chosen profile; an unrecognized profile raises KeyError,
    modelled as none. -/
noncomputable def setP (profile : String) (A P : ℝ) : Option ℝ :=
  if profile = "flat" then some (Real.sqrt (2 * (P / A) / cLight / eps0))
  else if profile = "gaussian" then some (Real.sqrt (2 * (2 * P / A) / cLight / eps0))
  else none

/-- setE (lines 88-90): stores E and derives the power
    P = A / 4 * c * epsilon_0 * E**2. -/
noncomputable def setE (A E : ℝ) : ℝ := A / 4 * cLight * eps0 * E ^ 2

/-- Profile handling of beam.__init__ (lines 57-61): an explicit profile is
    kept as is; a missing profile key falls back to gaussian and logs a
    warning.  The Bool records whether the warning diagnostic was emitted. -/
def initProfile (profileKw : Option String) : String × Bool :=
  match profileKw with
  | some p => (p, false)
  | none => ("gaussian", true)

end beam

/-! ## Observable extraction in solve (lines 590-603) -/

/-- Excited-state population extraction, np.sum(res[slices[1]], axis=0).real
    (line 596 for i = 1): the coordinates ng..ng+ne-1 of the solution list
    are summed and the real part is taken. -/
def state_population_excited (ng ne : ℕ) (xs : List ℂ) : ℝ :=
  (((xs.drop ng).take ne).sum).re

/-- Boolean selection list for the ground-to-excited transition block,
    matrix2list of the mask with mask[slices[0], slices[1]] = True
    (lines 510-514). -/
def transitionMask (ng ne : ℕ) : List Bool :=
  matrix2list (ng + ne) fun i j => decide (i < ng ∧ ng ≤ j ∧ j < ng + ne)

/-- Weight list k_alt = np.divide.outer(dme.ravel(), E) / epsilon_0
    (line 590), at one field amplitude: the row-major raveling of the
    ng x ne dme block, divided by E and by epsilon_0. -/
noncomputable def kalt (ng ne : ℕ) (dme : ℕ → ℕ → ℝ) (E : ℝ) : List ℂ :=
  (List.range ng).flatMap fun g =>
    (List.range ne).map fun e => ((dme g e : ℝ) : ℂ) / (E : ℂ) / (eps0 : ℂ)

/-- Susceptibility extraction at one grid point (line 597):
    abundance * 2 * sum(res[transition_list] * k_alt), where the boolean mask
    list selects coordinates of the solution list in order. -/
noncomputable def chiExtract (ng ne : ℕ) (dme : ℕ → ℕ → ℝ) (abundance E : ℝ)
    (xs : List ℂ) : ℂ :=
  (abundance : ℂ) * 2 *
    (((((transitionMask ng ne).zip xs).filter (fun q => q.1)).map (fun q => q.2)).zip
        (kalt ng ne dme E) |>.map (fun q => q.1 * q.2)).sum

/-! ## Doppler averaging (v_dist and solve_w_doppler, lines 534-536 and
     605-628) -/

/-- Maxwell-Boltzmann velocity probability density v_dist (lines 534-536). -/
noncomputable def v_dist (mass DoppT v : ℝ) : ℝ :=
  Real.sqrt (mass / (2 * Real.pi * kB * DoppT))
    * Real.exp (-mass * v ^ 2 / (2 * kB * DoppT))

/-- np.arange(a, b, step): the values a + n * step for
    n < ceil((b - a) / step). -/
noncomputable def arange (a b step : ℝ) : List ℝ :=
  (List.range (Int.ceil ((b - a) / step)).toNat).map fun n : ℕ => a + (n : ℝ) * step

/-- Minimum of a numpy array, as l.min() on a nonempty list. -/
noncomputable def listMin : List ℝ → ℝ
  | [] => 0
  | h :: t => t.foldl min h

/-- Maximum of a numpy array, as l.max() on a nonempty list. -/
noncomputable def listMax : List ℝ → ℝ
  | [] => 0
  | h :: t => t.foldl max h

/-- Velocity grid of solve_w_doppler (line 619):
    np.arange(w.min()/k - 1000, w.max()/k + 1000, resolution) with
    resolution = 2. -/
noncomputable def dopplerGrid (k : ℝ) (w : List ℝ) : List ℝ :=
  arange (listMin w / k - 1000) (listMax w / k + 1000) 2

/-- solve_w_doppler for the excited-state population (lines 605-628),
    parameterized by the unbroadened solver solveVec, which maps a detuning
    list and a power to the per-detuning excited-state populations.  The
    result is stored one column per power value, exactly as the loop fills
    exci_state[:, i]: for each power the solver is invoked once, on the
    velocity-shifted detuning grid k * v, and each detuning row is the
    elementwise product of the distribution row with the solver output,
    summed and multiplied by the resolution. -/
noncomputable def solve_w_doppler (mass DoppT f_res : ℝ)
    (solveVec : List ℝ → ℝ → List ℝ) (w P : List ℝ) : List (List ℝ) :=
  let k := f_res / cLight / 1e6
  let v := dopplerGrid k w
  let vdist := w.map fun wi => v.map fun vj => v_dist mass DoppT (wi / k - vj)
  P.map fun Pp =>
    let Evec := solveVec (v.map fun vj => k * vj) Pp
    vdist.map fun row => (((row.zip Evec).map fun q => q.1 * q.2).sum) * 2

/-! ## propagated_transmission (lines 669-681) -/

/-- Dynamic value yielded by Python iteration: a scalar or an array. -/
inductive PyVal where
  | num : ℝ → PyVal
  | arr : List ℝ → PyVal

/-- Stored state of a beam object: detuning array w, power P, diameter D. -/
structure BeamData where
  w : List ℝ
  P : ℝ
  D : ℝ

/-- beam.__iter__ (lines 93-94): yields the three values (w, P, D). -/
def beamIter (b : BeamData) : List PyVal :=
  [PyVal.arr b.w, PyVal.num b.P, PyVal.num b.D]

/-- The transmission rows T[1..steps] of the propagation loop (lines
    677-679): each step queries the transmission oracle at segment length dz
    with the minimum instantaneous power of the previous power row, then
    multiplies the power row pointwise by the transmission row. -/
noncomputable def propagationRows (transFn : ℝ → ℝ → List ℝ) (dz : ℝ) :
    ℕ → List ℝ → List (List ℝ)
  | 0, _ => []
  | k + 1, Pprev =>
      let T := transFn dz (listMin Pprev)
      T :: propagationRows transFn dz k ((T.zip Pprev).map fun q => q.1 * q.2)

/-- np.product(T, axis=0): pointwise product of the rows, starting from the
    row of ones T[0]. -/
noncomputable def columnsProduct (init : List ℝ) (rows : List (List ℝ)) : List ℝ :=
  rows.foldl (fun acc row => (acc.zip row).map fun q => q.1 * q.2) init

/-- propagated_transmission (lines 669-681).  Its first statement is the
    unpacking w, P0, D, _ = beams[0], which demands four values from the
    three-element iterator of beam; the four-element pattern below therefore
    never matches and the function returns none (the ValueError raised by
    Python), with the loop of lines 672-681 embedded in the (unreachable)
    success branch. -/
noncomputable def propagated_transmission (transFn : ℝ → ℝ → List ℝ)
    (beam0 : BeamData) (z : ℝ) (steps : ℕ) : Option (List ℝ) :=
  match beamIter beam0 with
  | [PyVal.arr w, PyVal.num P0, PyVal.num _, _] =>
      some (columnsProduct (List.replicate w.length 1)
        (propagationRows transFn (z / (steps : ℝ)) steps (List.replicate w.length P0)))
  | _ => none

/-! ## atomicSystem.__init__ element and state resolution (lines 150-198) -/

/-- Quantum state descriptor of class state (lines 36-51): quantum numbers
    n, l and j (j is half-integer, held as a rational). -/
structure PyState where
  n : ℕ
  l : ℕ
  j : ℚ
deriving DecidableEq

/-- Python str.lower(), as used by element.lower() at line 152. -/
def lowerString (s : String) : String := ⟨s.data.map Char.toLower⟩

/-- All element identifiers recognized by the dispatch chain of
    atomicSystem.__init__ (lines 152-177), compared lowercased. -/
def supportedElements : List String :=
  ["li6", "lithium6", "li7", "lithium7", "na", "na23", "sodium", "sodium23",
   "k39", "potassium39", "k40", "potassium40", "k41", "potassium41",
   "rb85", "rubidium85", "rb87", "rubidium87", "cs", "cs133", "caesium",
   "caesium133"]

/-- Element dispatch and reference-state resolution of atomicSystem.__init__
    (lines 150-198).  An unrecognized element raises ValueError; without
    explicit states, the Dline selector must be D1 or D2, else ValueError;
    with explicit states the code branches on states[1].j - states[1].j
    (verbatim from line 193: the difference of the excited j with itself),
    assigning D1 when it is below 0.9 and D2 when below 1.1, else raising
    ValueError.  Returns the resolved state pair and the Dline in effect. -/
def atomicSystemInit (element : String) (groundStateN : ℕ) (Dline : String)
    (states : Option (PyState × PyState)) :
    Except String ((PyState × PyState) × String) :=
  if lowerString element ∈ supportedElements then
    match states with
    | none =>
        if Dline = "D1" then
          Except.ok ((⟨groundStateN, 0, 1/2⟩, ⟨groundStateN, 1, 1/2⟩), Dline)
        else if Dline = "D2" then
          Except.ok ((⟨groundStateN, 0, 1/2⟩, ⟨groundStateN, 1, 3/2⟩), Dline)
        else Except.error "ValueError"
    | some (s0, s1) =>
        if s1.j - s1.j < 9/10 then Except.ok ((s0, s1), "D1")
        else if s1.j - s1.j < 11/10 then Except.ok ((s0, s1), "D2")
        else Except.error "Unsupported Dline"
  else Except.error "ValueError"

/-- Minimal concrete configuration used to evaluate the system at a point:
    one ground and one excited sublevel, zero energies and dipole couplings,
    transit time one half (so the transit rate 1/(2 tau n_g) is one), no
    buffer gas. -/
noncomputable def cfg0 : Config :=
  ⟨1, 1, fun _ => 0, fun _ => 0, fun _ _ => 0, fun _ _ => 0, 1/2, 0, 1⟩

/-! ## List-level facts about the coordinate ordering -/

lemma sum_list_range_map {M : Type} [AddCommMonoid M] (f : ℕ → M) (n : ℕ) :
    ((List.range n).map f).sum = ∑ i in Finset.range n, f i := by
  induction n with
  | zero => simp
  | succ k ih =>
      rw [List.range_succ, List.map_append, List.sum_append, Finset.sum_range_succ, ih]
      simp

lemma sum_flatMap_list {α : Type} {M : Type} [AddCommMonoid M] (l : List α)
    (f : α → List M) : (l.flatMap f).sum = (l.map fun a => (f a).sum).sum := by
  induction l with
  | nil => simp
  | cons h t ih => simp [List.flatMap_cons, ih]

lemma mem_pyrange {a b x : ℕ} : x ∈ pyrange a b ↔ a ≤ x ∧ x < b := by
  simp only [pyrange, List.mem_map, List.mem_range]
  constructor
  · rintro ⟨t, ht, rfl⟩
    omega
  · intro h
    exact ⟨x - a, by omega, by omega⟩

lemma length_pyrange (a b : ℕ) : (pyrange a b).length = b - a := by
  simp [pyrange]

lemma pyrange_append {a m b : ℕ} (h1 : a ≤ m) (h2 : m ≤ b) :
    pyrange a b = pyrange a m ++ pyrange m b := by
  unfold pyrange
  rw [show b - a = (m - a) + (b - m) by omega, List.range_add, List.map_append,
    List.map_map]
  congr 1
  apply List.map_congr_left
  intro t _
  simp only [Function.comp_apply]
  omega

lemma pyrange_eq_map (a n : ℕ) : pyrange a (a + n) = (List.range n).map (a + ·) := by
  unfold pyrange
  rw [Nat.add_sub_cancel_left]

lemma mem_upperPairs {N : ℕ} {p : ℕ × ℕ} (h : p ∈ upperPairs N) :
    p.1 < p.2 ∧ p.2 < N := by
  simp only [upperPairs, List.mem_flatMap, List.mem_map, List.mem_range] at h
  obtain ⟨i, hi, j, hj, rfl⟩ := h
  obtain ⟨h1, h2⟩ := mem_pyrange.mp hj
  exact ⟨by omega, by omega⟩

lemma nat_mul_sub_aux (N : ℕ) : N * (N - 1) + N = N * N := by
  rcases N with _ | M
  · rfl
  · simp [Nat.succ_sub_one]
    ring

lemma length_upperPairs (N : ℕ) : (upperPairs N).length * 2 + N = N * N := by
  have h1 : (upperPairs N).length = ∑ i in Finset.range N, (N - (i + 1)) := by
    rw [upperPairs, List.length_flatMap]
    simp only [Function.comp_def, List.length_map, length_pyrange]
    rw [sum_list_range_map]
  have h2 : ∑ i in Finset.range N, (N - (i + 1)) = ∑ i in Finset.range N, (N - 1 - i) := by
    apply Finset.sum_congr rfl
    intro i _
    omega
  have h3 : ∑ i in Finset.range N, (N - 1 - i) = ∑ i in Finset.range N, i :=
    Finset.sum_range_reflect (fun j => j) N
  rw [h1, h2, h3, Finset.sum_range_id_mul_two, nat_mul_sub_aux]

lemma length_entryList (N : ℕ) : (entryList N).length = N * N := by
  rw [← length_upperPairs N]
  simp only [entryList, matrix2list, List.length_append, List.length_map, List.length_range]
  omega

lemma length_rowList (N : ℕ) : (rowList N).length = N * N := by
  rw [rowList, List.length_flatMap]
  simp only [Function.comp_def, List.length_map, List.length_range]
  rw [sum_list_range_map]
  simp [Finset.sum_const, Finset.card_range, smul_eq_mul]

lemma getD_map_range {α : Type} (f : ℕ → α) (d : α) {n i : ℕ} (h : i < n) :
    ((List.range n).map f).getD i d = f i := by
  rw [List.getD_eq_getElem _ _ (by simpa using h)]
  simp

lemma getD_map {α β : Type} (f : α → β) (l : List α) (d : α) (d2 : β) {i : ℕ}
    (hi : i < l.length) : (l.map f).getD i d2 = f (l.getD i d) := by
  rw [List.getD_eq_getElem _ _ (by simpa using hi), List.getD_eq_getElem _ _ hi,
    List.getElem_map]

lemma rowList_getD_zero {N : ℕ} (hN : 0 < N) : (rowList N).getD 0 (0, 0) = (0, 0) := by
  obtain ⟨M, rfl⟩ : ∃ M, N = M + 1 := ⟨N - 1, by omega⟩
  rw [rowList, List.range_succ_eq_map, List.flatMap_cons, List.map_cons,
    List.cons_append, List.getD_cons_zero]

lemma entryList_getD_lt {N k : ℕ} (hk : k < N) :
    (entryList N).getD k (0, 0) = (k, k) := by
  rw [entryList, matrix2list, List.append_assoc,
    List.getD_append _ _ _ _ (by simpa using hk)]
  exact getD_map_range _ _ hk

lemma getD_mem {α : Type} (l : List α) (d : α) {n : ℕ} (h : n < l.length) :
    l.getD n d ∈ l := by
  rw [List.getD_eq_getElem _ _ h]
  exact List.getElem_mem h

lemma entryList_getD_ne {N k : ℕ} (hk1 : N ≤ k) (hk2 : k < N * N) :
    ((entryList N).getD k (0, 0)).1 ≠ ((entryList N).getD k (0, 0)).2 := by
  have hsplit : entryList N
      = ((List.range N).map fun i => ((i : ℕ), (i : ℕ)))
        ++ ((upperPairs N).map (fun p => (p.1, p.2))
            ++ (upperPairs N).map (fun p => (p.2, p.1))) := by
    rw [entryList, matrix2list, List.append_assoc]
  have hh : k < (entryList N).length := by rw [length_entryList]; exact hk2
  rw [hsplit] at hh
  simp only [List.length_append, List.length_map, List.length_range] at hh
  rw [hsplit, List.getD_append_right _ _ _ _ (by simpa using hk1)]
  have hmem : ((upperPairs N).map (fun p => (p.1, p.2))
        ++ (upperPairs N).map (fun p => (p.2, p.1))).getD
        (k - ((List.range N).map fun i => ((i : ℕ), (i : ℕ))).length) (0, 0)
      ∈ ((upperPairs N).map (fun p => (p.1, p.2))
        ++ (upperPairs N).map (fun p => (p.2, p.1))) := by
    apply getD_mem
    simp only [List.length_append, List.length_map, List.length_range]
    omega
  rcases List.mem_append.mp hmem with h1 | h2
  · obtain ⟨p, hp, heq⟩ := List.mem_map.mp h1
    obtain ⟨hlt, _⟩ := mem_upperPairs hp
    rw [← heq]
    exact Nat.ne_of_lt hlt
  · obtain ⟨p, hp, heq⟩ := List.mem_map.mp h2
    obtain ⟨hlt, _⟩ := mem_upperPairs hp
    rw [← heq]
    exact Ne.symm (Nat.ne_of_lt hlt)

lemma matrix2list_eq_map {α : Type} (N : ℕ) (m : ℕ → ℕ → α) :
    matrix2list N m = (entryList N).map fun p => m p.1 p.2 := by
  simp only [entryList, matrix2list, List.map_append, List.map_map]
  rfl

lemma upperPairs_filter_mask (ng ne : ℕ) :
    (upperPairs (ng + ne)).filter (fun p => decide (p.1 < ng ∧ ng ≤ p.2 ∧ p.2 < ng + ne))
      = (List.range ng).flatMap fun g => (List.range ne).map fun e => (g, ng + e) := by
  rw [upperPairs, List.filter_flatMap]
  have hinner : ∀ i ∈ List.range (ng + ne),
      (((pyrange (i + 1) (ng + ne)).map fun j => (i, j)).filter
          (fun p => decide (p.1 < ng ∧ ng ≤ p.2 ∧ p.2 < ng + ne)))
        = if i < ng then (List.range ne).map (fun e => (i, ng + e)) else [] := by
    intro i _
    rw [List.filter_map]
    by_cases hi : i < ng
    · rw [if_pos hi]
      have hpred : ∀ j ∈ pyrange (i + 1) (ng + ne),
          ((fun p => decide (p.1 < ng ∧ ng ≤ p.2 ∧ p.2 < ng + ne)) ∘ fun j => (i, j)) j
            = decide (ng ≤ j) := by
        intro j hj
        obtain ⟨hj1, hj2⟩ := mem_pyrange.mp hj
        simp only [Function.comp_apply]
        by_cases hngj : ng ≤ j
        · simp [hi, hngj, hj2]
        · simp [hngj]
      rw [List.filter_congr hpred,
        pyrange_append (show i + 1 ≤ ng by omega) (show ng ≤ ng + ne by omega)]
      rw [List.filter_append]
      have hfirst : (pyrange (i + 1) ng).filter (fun j => decide (ng ≤ j)) = [] := by
        rw [List.filter_eq_nil_iff]
        intro j hj
        obtain ⟨_, hj2⟩ := mem_pyrange.mp hj
        simp
        omega
      have hsecond : (pyrange ng (ng + ne)).filter (fun j => decide (ng ≤ j))
          = pyrange ng (ng + ne) := by
        rw [List.filter_eq_self]
        intro j hj
        obtain ⟨hj1, _⟩ := mem_pyrange.mp hj
        simpa using hj1
      rw [hfirst, hsecond, List.nil_append, pyrange_eq_map, List.map_map]
      rfl
    · rw [if_neg hi]
      have hnil : (pyrange (i + 1) (ng + ne)).filter
          ((fun p => decide (p.1 < ng ∧ ng ≤ p.2 ∧ p.2 < ng + ne)) ∘ fun j => (i, j)) = [] := by
        rw [List.filter_eq_nil_iff]
        intro j _
        simp only [Function.comp_apply, decide_eq_true_eq]
        intro hcon
        exact hi hcon.1
      rw [hnil, List.map_nil]
  rw [List.flatMap_congr hinner, List.range_add, List.flatMap_append]
  have hright : ((List.range ne).map fun e => ng + e).flatMap
      (fun i => if i < ng then (List.range ne).map (fun e => (i, ng + e)) else []) = [] := by
    rw [List.flatMap_eq_nil_iff]
    intro i hi
    obtain ⟨e, _, rfl⟩ := List.mem_map.mp hi
    rw [if_neg (by omega)]
  rw [hright, List.append_nil]
  apply List.flatMap_congr
  intro g hg
  rw [List.mem_range] at hg
  rw [if_pos hg]

lemma filter_entryList_mask (ng ne : ℕ) :
    (entryList (ng + ne)).filter (fun p => decide (p.1 < ng ∧ ng ≤ p.2 ∧ p.2 < ng + ne))
      = ((List.range ng).flatMap fun g => (List.range ne).map fun e => (g, ng + e)).map
          fun p => (p.1, p.2) := by
  have hsplit : entryList (ng + ne)
      = ((List.range (ng + ne)).map fun i => ((i : ℕ), (i : ℕ)))
        ++ ((upperPairs (ng + ne)).map (fun p => (p.1, p.2))
            ++ (upperPairs (ng + ne)).map (fun p => (p.2, p.1))) := by
    rw [entryList, matrix2list, List.append_assoc]
  rw [hsplit, List.filter_append, List.filter_append]
  have hdiag : ((List.range (ng + ne)).map fun i => ((i : ℕ), (i : ℕ))).filter
      (fun p => decide (p.1 < ng ∧ ng ≤ p.2 ∧ p.2 < ng + ne)) = [] := by
    rw [List.filter_map, List.filter_eq_nil_iff.mpr, List.map_nil]
    intro i _
    simp only [Function.comp_apply, decide_eq_true_eq]
    intro hcon
    omega
  have hlower : ((upperPairs (ng + ne)).map fun p => (p.2, p.1)).filter
      (fun p => decide (p.1 < ng ∧ ng ≤ p.2 ∧ p.2 < ng + ne)) = [] := by
    rw [List.filter_map, List.filter_eq_nil_iff.mpr, List.map_nil]
    intro p hp
    obtain ⟨hlt, _⟩ := mem_upperPairs hp
    simp only [Function.comp_apply, decide_eq_true_eq]
    intro hcon
    omega
  have hupper : ((upperPairs (ng + ne)).map fun p => (p.1, p.2)).filter
      (fun p => decide (p.1 < ng ∧ ng ≤ p.2 ∧ p.2 < ng + ne))
      = ((List.range ng).flatMap fun g => (List.range ne).map fun e => (g, ng + e)).map
          fun p => (p.1, p.2) := by
    rw [List.filter_map, ← upperPairs_filter_mask ng ne]
    congr 1
  rw [hdiag, hlower, hupper, List.nil_append, List.append_nil]

lemma zip_mul_sum {R : Type} [NonUnitalNonAssocSemiring R] (l1 l2 : List R) :
    ((l1.zip l2).map fun q => q.1 * q.2).sum
      = ∑ jj in Finset.range (min l1.length l2.length), l1.getD jj 0 * l2.getD jj 0 := by
  induction l1 generalizing l2 with
  | nil => simp
  | cons a t ih =>
      cases l2 with
      | nil => simp
      | cons b t2 =>
          simp only [List.zip_cons_cons, List.map_cons, List.sum_cons, ih, List.length_cons,
            Nat.succ_min_succ, Finset.sum_range_succ', List.getD_cons_succ, List.getD_cons_zero]
          rw [add_comm]

/-! ## Entrywise form of the Lindblad superoperators -/

lemma Lindblad_decay_apply (Ntot : ℕ) (Γ : ℕ → ℕ → ℝ) (r : ℕ → ℕ → ℂ) {a b : ℕ}
    (ha : a < Ntot) (hb : b < Ntot) :
    Lindblad_decay Ntot Γ r a b
      = if a = b then
          ∑ jj in Finset.range Ntot, ((Γ jj a : ℂ) * r jj jj - (Γ a jj : ℂ) * r a a)
        else
          -(∑ k in Finset.range Ntot, (1 / 2 : ℂ) * ((Γ a k : ℂ) + (Γ b k : ℂ)) * r a b) := by
  unfold Lindblad_decay
  by_cases hab : a = b
  · subst hab
    rw [if_pos rfl, Finset.sum_eq_single a]
    · refine Finset.sum_congr rfl fun jj _ => ?_
      rw [if_pos ⟨rfl, rfl⟩, if_neg, add_zero]
      rintro ⟨hne, _, hbj⟩
      exact hne hbj
    · intro ii _ hii
      apply Finset.sum_eq_zero
      intro jj _
      rw [if_neg, if_neg, add_zero]
      · rintro ⟨_, hai, _⟩
        exact hii hai.symm
      · rintro ⟨hai, _⟩
        exact hii hai.symm
    · intro hcon
      exact absurd (Finset.mem_range.mpr ha) hcon
  · rw [if_neg hab, Finset.sum_eq_single a]
    · rw [Finset.sum_eq_single b]
      · rw [if_neg, if_pos ⟨hab, rfl, rfl⟩, zero_add]
        rintro ⟨_, hba⟩
        exact hab hba.symm
      · intro jj _ hjj
        rw [if_neg, if_neg, add_zero]
        · rintro ⟨_, _, hbj⟩
          exact hjj hbj.symm
        · rintro ⟨_, hba⟩
          exact hab hba.symm
      · intro hcon
        exact absurd (Finset.mem_range.mpr hb) hcon
    · intro ii _ hii
      apply Finset.sum_eq_zero
      intro jj _
      rw [if_neg, if_neg, add_zero]
      · rintro ⟨_, hai, _⟩
        exact hii hai.symm
      · rintro ⟨hai, _⟩
        exact hii hai.symm
    · intro hcon
      exact absurd (Finset.mem_range.mpr ha) hcon

lemma Lindblad_dephase_apply (Ntot : ℕ) (Γ : ℕ → ℕ → ℝ) (r : ℕ → ℕ → ℂ) {a b : ℕ}
    (ha : a < Ntot) (hb : b < Ntot) :
    Lindblad_dephase Ntot Γ r a b
      = if a = b then 0 else -((1 / 2 : ℂ) * (Γ a b : ℂ) * r a b) := by
  unfold Lindblad_dephase
  by_cases hab : a = b
  · subst hab
    rw [if_pos rfl]
    apply Finset.sum_eq_zero
    intro ii _
    apply Finset.sum_eq_zero
    intro jj _
    rw [if_neg]
    rintro ⟨hne, h1, h2⟩
    exact hne (by omega)
  · rw [if_neg hab, Finset.sum_eq_single a]
    · rw [Finset.sum_eq_single b]
      · rw [if_pos ⟨hab, rfl, rfl⟩]
      · intro jj _ hjj
        rw [if_neg]
        rintro ⟨_, _, hbj⟩
        exact hjj hbj.symm
      · intro hcon
        exact absurd (Finset.mem_range.mpr hb) hcon
    · intro ii _ hii
      apply Finset.sum_eq_zero
      intro jj _
      rw [if_neg]
      rintro ⟨_, hai, _⟩
      exact hii hai.symm
    · intro hcon
      exact absurd (Finset.mem_range.mpr ha) hcon

/-- Round trip of the beam power parameterization: from power P the field is
    derived through the intensity of the profile, and setE maps that field
    back to a power using the fixed factor A/4 c eps0, which matches the
    gaussian intensity convention only; for the flat profile the round trip
    halves the power. -/
lemma setP_setE_roundtrip {A P : ℝ} (hA : 0 < A) (hP : 0 < P) :
    (beam.setP "gaussian" A P).map (beam.setE A) = some P ∧
      (beam.setP "flat" A P).map (beam.setE A) = some (P / 2) := by
  have hcpos : (0:ℝ) < cLight := by rw [cLight]; norm_num
  have hepos : (0:ℝ) < eps0 := by rw [eps0]; norm_num
  constructor
  · rw [beam.setP, if_neg (by decide), if_pos rfl]
    have hs : (0:ℝ) ≤ 2 * (2 * P / A) / cLight / eps0 :=
      div_nonneg (div_nonneg (by positivity) hcpos.le) hepos.le
    simp only [Option.map_some']
    congr 1
    rw [beam.setE, Real.sq_sqrt hs]
    field_simp
    ring
  · rw [beam.setP, if_pos rfl]
    have hs : (0:ℝ) ≤ 2 * (P / A) / cLight / eps0 :=
      div_nonneg (div_nonneg (by positivity) hcpos.le) hepos.le
    simp only [Option.map_some']
    congr 1
    rw [beam.setE, Real.sq_sqrt hs]
    field_simp
    ring

/-! ## Claim theorems -/

/-- C2: for every rate matrix, the Lindblad decay operator has at diagonal
    position i the gain term sum_j (G[j,i] x_jj - G[i,j] x_ii) and at every
    off-diagonal position (i,j) the loss term 0.5 sum_k (G[i,k]+G[j,k]) x_ij
    (entering with a minus sign); the pure-dephasing operator has zero on the
    diagonal and only the damping term 0.5 G[i,j] x_ij off the diagonal. -/
theorem C2_Lindblad_operator_entries (Ntot : ℕ) (Γ : ℕ → ℕ → ℝ) (r : ℕ → ℕ → ℂ)
    (i j : ℕ) (hi : i < Ntot) (hj : j < Ntot) :
    Lindblad_decay Ntot Γ r i i
        = ∑ jj in Finset.range Ntot, ((Γ jj i : ℂ) * r jj jj - (Γ i jj : ℂ) * r i i) ∧
      (i ≠ j → Lindblad_decay Ntot Γ r i j
        = -((1 / 2 : ℂ) * (∑ k in Finset.range Ntot, ((Γ i k : ℂ) + (Γ j k : ℂ))) * r i j)) ∧
      Lindblad_dephase Ntot Γ r i i = 0 ∧
      (i ≠ j → Lindblad_dephase Ntot Γ r i j = -((1 / 2 : ℂ) * (Γ i j : ℂ) * r i j)) := by
  refine ⟨?_, fun hne => ?_, ?_, fun hne => ?_⟩
  · rw [Lindblad_decay_apply Ntot Γ r hi hi, if_pos rfl]
  · rw [Lindblad_decay_apply Ntot Γ r hi hj, if_neg hne, ← Finset.sum_mul, ← Finset.mul_sum]
  · rw [Lindblad_dephase_apply Ntot Γ r hi hi, if_pos rfl]
  · rw [Lindblad_dephase_apply Ntot Γ r hi hj, if_neg hne]

/-- Witness for C2 at a concrete two-level rate matrix. -/
theorem C2_witness :
    (0:ℕ) < 2 ∧ (1:ℕ) < 2 ∧
      (Lindblad_decay 2 (fun _ _ => (1:ℝ)) (fun _ _ => (1:ℂ)) 0 0
          = ∑ jj in Finset.range 2, (((1:ℝ) : ℂ) * 1 - ((1:ℝ) : ℂ) * 1) ∧
        ((0:ℕ) ≠ 1 → Lindblad_decay 2 (fun _ _ => (1:ℝ)) (fun _ _ => (1:ℂ)) 0 1
          = -((1 / 2 : ℂ) * (∑ k in Finset.range 2, (((1:ℝ) : ℂ) + ((1:ℝ) : ℂ))) * 1)) ∧
        Lindblad_dephase 2 (fun _ _ => (1:ℝ)) (fun _ _ => (1:ℂ)) 0 0 = 0 ∧
        ((0:ℕ) ≠ 1 → Lindblad_dephase 2 (fun _ _ => (1:ℝ)) (fun _ _ => (1:ℂ)) 0 1
          = -((1 / 2 : ℂ) * ((1:ℝ) : ℂ) * 1))) :=
  ⟨by norm_num, by norm_num,
    C2_Lindblad_operator_entries 2 (fun _ _ => 1) (fun _ _ => 1) 0 1 (by norm_num) (by norm_num)⟩

/-- C9: the transit-time rate matrix equals 1/(2 tau n_ground) exactly on the
    ground-to-ground and excited-to-ground blocks and is zero elsewhere, in
    the numeric build and in the symbolic-transit build alike. -/
theorem C9_transit_rate_matrix (cfg : Config) (tau : ℝ) (i j : ℕ) :
    g_transit cfg i j
        = (if i < cfg.N ∧ j < cfg.ng then 1 / (2 * cfg.transit_time * (cfg.ng : ℝ)) else 0) ∧
      g_transit_symbolic cfg tau i j
        = (if i < cfg.N ∧ j < cfg.ng then 1 / (2 * tau * (cfg.ng : ℝ)) else 0) := by
  have hng : cfg.ng ≤ cfg.N := by
    unfold Config.N
    omega
  have hc : ((i < cfg.ng ∧ j < cfg.ng) ∨ (cfg.ng ≤ i ∧ i < cfg.N ∧ j < cfg.ng))
      ↔ (i < cfg.N ∧ j < cfg.ng) := by omega
  have hv : ∀ t : ℝ, 1 / t / (cfg.ng : ℝ) / 2 = 1 / (2 * t * (cfg.ng : ℝ)) := by
    intro t
    rw [div_div, div_div]
    congr 1
    ring
  constructor
  · simp only [g_transit, hc, hv]
  · simp only [g_transit_symbolic, hc, hv]

/-- C6: when the buffer-gas rate is zero, the decay and dephase collision
    models generate the same master equation, and hence the same compiled
    coefficient matrix A (the vector b does not depend on the model). -/
theorem C6_collision_models_agree (cfg : Config) (h : cfg.GammaBuf = 0) :
    (∀ wL E r i j, master_equation cfg Collisions.decay wL E r i j
        = master_equation cfg Collisions.dephase wL E r i j) ∧
      ∀ wL E, Amat cfg Collisions.decay wL E = Amat cfg Collisions.dephase wL E := by
  have hcol : ∀ a b, g_col_decay cfg a b = 0 := by
    intro a b
    simp only [g_col_decay, h, zero_div]
    split <;> rfl
  have hdeph : ∀ a b, g_col_dephase cfg a b = 0 := by
    intro a b
    simp only [g_col_dephase, h]
    split <;> rfl
  have hme : ∀ wL E r i j, master_equation cfg Collisions.decay wL E r i j
      = master_equation cfg Collisions.dephase wL E r i j := by
    intro wL E r i j
    have h1 : (fun a b => g_dec cfg a b + g_transit cfg a b + g_col_decay cfg a b)
        = fun a b => g_dec cfg a b + g_transit cfg a b := by
      funext a b
      rw [hcol, add_zero]
    have h2 : Lindblad_dephase cfg.N (g_col_dephase cfg) r i j = 0 := by
      unfold Lindblad_dephase
      apply Finset.sum_eq_zero
      intro a _
      apply Finset.sum_eq_zero
      intro b _
      split
      · rw [hdeph]
        simp
      · rfl
    simp only [master_equation]
    rw [h1, h2, sub_zero]
  refine ⟨hme, fun wL E => ?_⟩
  have hsys : ∀ r i j, system_matrix cfg Collisions.decay wL E r i j
      = system_matrix cfg Collisions.dephase wL E r i j := by
    intro r i j
    unfold system_matrix
    split
    · rfl
    · exact hme wL E r i j
  funext rr cc
  simp only [Amat]
  rw [hsys, hsys]

/-- Witness for C6 at the concrete buffer-gas-free configuration cfg0. -/
theorem C6_witness :
    cfg0.GammaBuf = 0 ∧
      ((∀ wL E r i j, master_equation cfg0 Collisions.decay wL E r i j
          = master_equation cfg0 Collisions.dephase wL E r i j) ∧
        ∀ wL E, Amat cfg0 Collisions.decay wL E = Amat cfg0 Collisions.dephase wL E) :=
  ⟨rfl, C6_collision_models_agree cfg0 rfl⟩

/-- C4 amended: constructing a beam from power and reading back the derived
    amplitude, then reconstructing the power from that amplitude, reproduces
    the original power for the gaussian profile; for the flat profile the
    reconstruction yields P/2, because setE always uses the gaussian
    power-intensity factor A/4 c eps0. -/
theorem C4_beam_roundtrip_amended (A P : ℝ) (hA : 0 < A) (hP : 0 < P) :
    (beam.setP "gaussian" A P).map (beam.setE A) = some P ∧
      (beam.setP "flat" A P).map (beam.setE A) = some (P / 2) :=
  setP_setE_roundtrip hA hP

/-- Counterexample for C4 as stated: for the flat profile at A = 1, P = 1 the
    round trip returns 1/2, not the original power 1. -/
theorem C4_beam_roundtrip_cex :
    (beam.setP "flat" 1 1).map (beam.setE 1) = some (1 / 2) ∧ ((1 : ℝ) / 2) ≠ 1 :=
  ⟨(setP_setE_roundtrip one_pos one_pos).2, by norm_num⟩

/-- Witness for the amended C4 at A = 1, P = 1. -/
theorem C4_beam_roundtrip_witness :
    (0:ℝ) < 1 ∧
      ((beam.setP "gaussian" 1 1).map (beam.setE 1) = some 1 ∧
        (beam.setP "flat" 1 1).map (beam.setE 1) = some (1 / 2)) :=
  ⟨one_pos, C4_beam_roundtrip_amended 1 1 one_pos one_pos⟩

/-- C10: omitting the profile key makes beam.__init__ fall back to gaussian
    with a warning, and setP with any profile other than flat or gaussian
    raises KeyError (returns none) instead of producing a value. -/
theorem C10_profile_default_and_keyerror (s : String) (hs1 : s ≠ "flat")
    (hs2 : s ≠ "gaussian") :
    beam.initProfile none = ("gaussian", true) ∧ ∀ A P : ℝ, beam.setP s A P = none := by
  refine ⟨rfl, fun A P => ?_⟩
  rw [beam.setP, if_neg hs1, if_neg hs2]

/-- Witness for C10 with the unknown profile string parabolic. -/
theorem C10_witness :
    "parabolic" ≠ "flat" ∧ "parabolic" ≠ "gaussian" ∧
      (beam.initProfile none = ("gaussian", true) ∧ beam.setP "parabolic" 1 1 = none) :=
  ⟨by decide, by decide,
    (C10_profile_default_and_keyerror "parabolic" (by decide) (by decide)).1,
    (C10_profile_default_and_keyerror "parabolic" (by decide) (by decide)).2 1 1⟩

/-- C5: propagated_transmission unpacks four values (w, P0, D, _) from
    beams[0], but beam.__iter__ yields only three, so every call fails with
    ValueError (none) before any propagation step runs; here evaluated at a
    concrete beam, path length and step count. -/
theorem C5_propagation_unpack_fails :
    propagated_transmission (fun _ _ => [1]) ⟨[0], 1e-15, 5e-3⟩ (1/20) 50 = none := rfl

/-- C8: the custom-states branch of atomicSystem.__init__ compares
    states[1].j - states[1].j (which is always zero) against the D1/D2
    thresholds, so a custom state pair with angular-momentum difference 2
    (j = 1/2 ground against j = 5/2 excited), which the claim requires to be
    rejected, is accepted and labelled D1. -/
theorem C8_unsupported_states_accepted :
    atomicSystemInit "Rb87" 5 "D2" (some (⟨5, 0, 1/2⟩, ⟨5, 1, 5/2⟩))
      = Except.ok ((⟨5, 0, 1/2⟩, ⟨5, 1, 5/2⟩), "D1") := by
  rw [atomicSystemInit, if_pos (by decide)]
  norm_num

/-! ## Row zero of the compiled linear system -/

lemma Amat_row_zero (cfg : Config) (col : Collisions) (wL E : ℝ) (hN : 0 < cfg.N)
    (c : Fin (cfg.N * cfg.N)) :
    Amat cfg col wL E ⟨0, Nat.mul_pos hN hN⟩ c = if (c : ℕ) < cfg.N then 1 else 0 := by
  unfold Amat
  rw [rowList_getD_zero hN]
  unfold system_matrix
  rw [if_pos ⟨rfl, rfl⟩, if_pos ⟨rfl, rfl⟩]
  have hzero : ∑ k in Finset.range cfg.N, (0 : ℂ) = 0 := Finset.sum_const_zero
  rw [hzero]
  by_cases hc : (c : ℕ) < cfg.N
  · rw [if_pos hc, entryList_getD_lt hc]
    have hsum : ∑ k in Finset.range cfg.N, unitRho (c : ℕ) (c : ℕ) k k = 1 := by
      unfold unitRho
      have : ∀ k ∈ Finset.range cfg.N,
          (if k = (c : ℕ) ∧ k = (c : ℕ) then (1:ℂ) else 0)
            = if (c : ℕ) = k then (1:ℂ) else 0 := by
        intro k _
        simp only [and_self]
        by_cases hk : k = (c : ℕ)
        · rw [if_pos hk, if_pos hk.symm]
        · rw [if_neg hk, if_neg (fun hcc => hk hcc.symm)]
      rw [Finset.sum_congr rfl this, Finset.sum_ite_eq (Finset.range cfg.N) (c : ℕ) fun _ => (1:ℂ)]
      rw [if_pos (Finset.mem_range.mpr hc)]
    rw [hsum]
    ring
  · rw [if_neg hc]
    have hne := entryList_getD_ne (Nat.le_of_not_lt hc) c.isLt
    have hsum : ∑ k in Finset.range cfg.N,
        unitRho ((entryList cfg.N).getD (c : ℕ) (0, 0)).1
          ((entryList cfg.N).getD (c : ℕ) (0, 0)).2 k k = 0 := by
      apply Finset.sum_eq_zero
      intro k _
      unfold unitRho
      rw [if_neg]
      rintro ⟨h1, h2⟩
      exact hne (h1 ▸ h2 ▸ rfl)
    rw [hsum]
    ring

/-- C1: whenever x solves the compiled linear system A(detuning, field) x = b,
    the coordinates of x at the first N positions, which are exactly the
    diagonal population coordinates of the matrix2list ordering, sum to one:
    the first row of A is the trace-normalization constraint row and b has
    first entry 1 and all other entries 0. -/
theorem C1_trace_normalization (cfg : Config) (col : Collisions) (wL E : ℝ)
    (hN : 0 < cfg.N) (x : Fin (cfg.N * cfg.N) → ℂ)
    (hx : (Amat cfg col wL E).mulVec x = bvec (cfg.N * cfg.N)) :
    (∀ k, k < cfg.N → (entryList cfg.N).getD k (0, 0) = (k, k)) ∧
      ∑ c : Fin (cfg.N * cfg.N), (if (c : ℕ) < cfg.N then x c else 0) = 1 := by
  refine ⟨fun k hk => entryList_getD_lt hk, ?_⟩
  have h0 := congrFun hx ⟨0, Nat.mul_pos hN hN⟩
  rw [Matrix.mulVec] at h0
  rw [show Matrix.dotProduct (fun j => Amat cfg col wL E ⟨0, Nat.mul_pos hN hN⟩ j) x
      = ∑ c : Fin (cfg.N * cfg.N), Amat cfg col wL E ⟨0, Nat.mul_pos hN hN⟩ c * x c
    from rfl] at h0
  have hb : bvec (cfg.N * cfg.N) ⟨0, Nat.mul_pos hN hN⟩ = 1 := rfl
  rw [hb] at h0
  rw [← h0]
  apply Finset.sum_congr rfl
  intro c _
  rw [Amat_row_zero cfg col wL E hN c]
  by_cases hc : (c : ℕ) < cfg.N
  · rw [if_pos hc, if_pos hc, one_mul]
  · rw [if_neg hc, if_neg hc, zero_mul]

/-! ## Concrete evaluation of the linear system at cfg0 -/

lemma commutatorH_of_zero (Ntot : ℕ) (H : ℕ → ℕ → ℝ) (r : ℕ → ℕ → ℂ) (i j : ℕ)
    (hH : ∀ a b, H a b = 0) : commutatorH Ntot H r i j = 0 := by
  unfold commutatorH
  simp [hH]

lemma cfg0_H (i j : ℕ) : Hmat cfg0 0 0 i j = 0 := by
  unfold Hmat H_rabi H_rabi_half H_energylevels detunings
  simp [cfg0]

lemma cfg0_rates (a b : ℕ) :
    g_dec cfg0 a b + g_transit cfg0 a b + g_col_decay cfg0 a b
      = if a < 2 ∧ b = 0 then (1:ℝ) else 0 := by
  unfold g_dec g_transit g_col_decay
  simp only [cfg0, Config.N]
  norm_num
  split_ifs <;> first | rfl | omega

lemma Lindblad_decay_zeroRho (Ntot : ℕ) (Γ : ℕ → ℕ → ℝ) (i j : ℕ) :
    Lindblad_decay Ntot Γ (fun _ _ => 0) i j = 0 := by
  unfold Lindblad_decay
  simp

lemma Lindblad_dephase_zeroRho (Ntot : ℕ) (Γ : ℕ → ℕ → ℝ) (i j : ℕ) :
    Lindblad_dephase Ntot Γ (fun _ _ => 0) i j = 0 := by
  unfold Lindblad_dephase
  simp

lemma master_equation_zeroRho (cfg : Config) (col : Collisions) (wL E : ℝ) (i j : ℕ) :
    master_equation cfg col wL E (fun _ _ => 0) i j = 0 := by
  cases col <;>
    simp [master_equation, commutatorH_of_zero, Lindblad_decay_zeroRho,
      Lindblad_dephase_zeroRho, commutatorH]

lemma cfg0_master_unit (i j : ℕ) (hi : i < 2) (hj : j < 2) :
    master_equation cfg0 Collisions.decay 0 0 (unitRho 0 0) i j = 0 := by
  have hrates : (fun a b => g_dec cfg0 a b + g_transit cfg0 a b + g_col_decay cfg0 a b)
      = fun a b => if a < 2 ∧ b = 0 then (1:ℝ) else 0 :=
    funext fun a => funext fun b => cfg0_rates a b
  have hcomm : commutatorH cfg0.N (Hmat cfg0 0 0) (unitRho 0 0) i j = 0 :=
    commutatorH_of_zero _ _ _ _ _ cfg0_H
  simp only [master_equation, hrates, hcomm, mul_zero, zero_sub, neg_eq_zero]
  rw [Lindblad_decay_apply cfg0.N _ _ hi hj, show cfg0.N = 2 from rfl]
  interval_cases i <;> interval_cases j <;>
    simp [unitRho, Finset.sum_range_succ]

lemma mulVec_bvec {n : ℕ} (hn : 0 < n) (A : Matrix (Fin n) (Fin n) ℂ) (r : Fin n) :
    A.mulVec (bvec n) r = A r ⟨0, hn⟩ := by
  rw [Matrix.mulVec]
  rw [show Matrix.dotProduct (fun j => A r j) (bvec n)
      = ∑ c : Fin n, A r c * bvec n c from rfl]
  rw [Finset.sum_eq_single ⟨0, hn⟩]
  · rw [show bvec n ⟨0, hn⟩ = 1 from rfl, mul_one]
  · intro c _ hc
    rw [show bvec n c = if (c : ℕ) = 0 then 1 else 0 from rfl, if_neg, mul_zero]
    intro hcv
    exact hc (Fin.ext hcv)
  · intro hcon
    exact absurd (Finset.mem_univ _) hcon

lemma Amat_apply_eq (cfg : Config) (col : Collisions) (wL E : ℝ)
    (r c : Fin (cfg.N * cfg.N)) :
    Amat cfg col wL E r c
      = system_matrix cfg col wL E
          (unitRho ((entryList cfg.N).getD (c : ℕ) (0, 0)).1
            ((entryList cfg.N).getD (c : ℕ) (0, 0)).2)
          ((rowList cfg.N).getD (r : ℕ) (0, 0)).1 ((rowList cfg.N).getD (r : ℕ) (0, 0)).2
        - system_matrix cfg col wL E (fun _ _ => 0)
            ((rowList cfg.N).getD (r : ℕ) (0, 0)).1
            ((rowList cfg.N).getD (r : ℕ) (0, 0)).2 := rfl

lemma cfg0_sum_unit : ∑ k in Finset.range cfg0.N, unitRho 0 0 k k = 1 := by
  show ∑ k in Finset.range 2, unitRho 0 0 k k = 1
  rw [Finset.sum_range_succ, Finset.sum_range_succ, Finset.sum_range_zero]
  unfold unitRho
  norm_num

lemma cfg0_solves :
    (Amat cfg0 Collisions.decay 0 0).mulVec (bvec (cfg0.N * cfg0.N))
      = bvec (cfg0.N * cfg0.N) := by
  funext r
  rw [mulVec_bvec (by decide) _ r, Amat_apply_eq]
  rcases r with ⟨rv, hr⟩
  have hr4 : rv < 4 := hr
  interval_cases rv
  · rw [show ((⟨0, hr⟩ : Fin (cfg0.N * cfg0.N)) : ℕ) = 0 from rfl,
      show (rowList cfg0.N).getD 0 (0, 0) = (0, 0) from rfl,
      show ((entryList cfg0.N).getD ((⟨0, by decide⟩ : Fin (cfg0.N * cfg0.N)) : ℕ) (0, 0))
        = (0, 0) from rfl]
    unfold system_matrix
    rw [if_pos ⟨rfl, rfl⟩, if_pos ⟨rfl, rfl⟩]
    dsimp only
    rw [cfg0_sum_unit, Finset.sum_const_zero,
      show bvec (cfg0.N * cfg0.N) ⟨0, hr⟩ = 1 from rfl]
    ring
  · rw [show ((⟨1, hr⟩ : Fin (cfg0.N * cfg0.N)) : ℕ) = 1 from rfl,
      show (rowList cfg0.N).getD 1 (0, 0) = (0, 1) from rfl,
      show ((entryList cfg0.N).getD ((⟨0, by decide⟩ : Fin (cfg0.N * cfg0.N)) : ℕ) (0, 0))
        = (0, 0) from rfl]
    unfold system_matrix
    rw [if_neg (by decide), if_neg (by decide)]
    dsimp only
    rw [cfg0_master_unit 0 1 (by decide) (by decide), master_equation_zeroRho,
      show bvec (cfg0.N * cfg0.N) ⟨1, hr⟩ = 0 from rfl]
    ring
  · rw [show ((⟨2, hr⟩ : Fin (cfg0.N * cfg0.N)) : ℕ) = 2 from rfl,
      show (rowList cfg0.N).getD 2 (0, 0) = (1, 0) from rfl,
      show ((entryList cfg0.N).getD ((⟨0, by decide⟩ : Fin (cfg0.N * cfg0.N)) : ℕ) (0, 0))
        = (0, 0) from rfl]
    unfold system_matrix
    rw [if_neg (by decide), if_neg (by decide)]
    dsimp only
    rw [cfg0_master_unit 1 0 (by decide) (by decide), master_equation_zeroRho,
      show bvec (cfg0.N * cfg0.N) ⟨2, hr⟩ = 0 from rfl]
    ring
  · rw [show ((⟨3, hr⟩ : Fin (cfg0.N * cfg0.N)) : ℕ) = 3 from rfl,
      show (rowList cfg0.N).getD 3 (0, 0) = (1, 1) from rfl,
      show ((entryList cfg0.N).getD ((⟨0, by decide⟩ : Fin (cfg0.N * cfg0.N)) : ℕ) (0, 0))
        = (0, 0) from rfl]
    unfold system_matrix
    rw [if_neg (by decide), if_neg (by decide)]
    dsimp only
    rw [cfg0_master_unit 1 1 (by decide) (by decide), master_equation_zeroRho,
      show bvec (cfg0.N * cfg0.N) ⟨3, hr⟩ = 0 from rfl]
    ring

/-- Witness for C1: the concrete two-level system cfg0 at zero detuning and
    zero field, whose linear system is solved by the first basis vector. -/
theorem C1_witness :
    0 < cfg0.N ∧
      ((∀ k, k < cfg0.N → (entryList cfg0.N).getD k (0, 0) = (k, k)) ∧
        ∑ c : Fin (cfg0.N * cfg0.N),
          (if (c : ℕ) < cfg0.N then bvec (cfg0.N * cfg0.N) c else 0) = 1) :=
  ⟨by decide,
    C1_trace_normalization cfg0 Collisions.decay 0 0 (by decide)
      (bvec (cfg0.N * cfg0.N)) cfg0_solves⟩

/-- C3: at any grid point, the extracted excited-state population is the real
    part of the sum of the solution coordinates in the excited diagonal range,
    and the extracted susceptibility is 2 abundance times the sum over the
    ground-to-excited upper-triangle coherence coordinates only, each
    weighted by dme/(E eps0); the lower-triangle coordinates do not enter. -/
theorem C3_solve_extraction (ng ne : ℕ) (ρ : ℕ → ℕ → ℂ) (dme : ℕ → ℕ → ℝ)
    (abundance E : ℝ) :
    state_population_excited ng ne (matrix2list (ng + ne) ρ)
        = (∑ i in Finset.range ne, ρ (ng + i) (ng + i)).re ∧
      chiExtract ng ne dme abundance E (matrix2list (ng + ne) ρ)
        = (abundance : ℂ) * 2 *
            ∑ g in Finset.range ng, ∑ e in Finset.range ne,
              ρ g (ng + e) * (((dme g e : ℝ) : ℂ) / ((E : ℂ) * (eps0 : ℂ))) := by
  constructor
  · unfold state_population_excited
    congr 1
    rw [matrix2list, List.append_assoc, List.drop_append_eq_append_drop]
    rw [show ng - ((List.range (ng + ne)).map fun i => ρ i i).length = 0 by simp]
    rw [List.drop_zero, List.range_add, List.map_append, List.drop_append_eq_append_drop]
    rw [List.drop_eq_nil_of_le (by simp), List.nil_append]
    rw [show ng - ((List.range ng).map fun i => ρ i i).length = 0 by simp]
    rw [List.drop_zero, List.take_left' (by simp), List.map_map, sum_list_range_map]
    simp [Function.comp]
  · unfold chiExtract transitionMask kalt
    rw [matrix2list_eq_map (ng + ne) ρ,
      matrix2list_eq_map (ng + ne) fun i j => decide (i < ng ∧ ng ≤ j ∧ j < ng + ne)]
    rw [List.zip_map', List.filter_map]
    have hfil : (entryList (ng + ne)).filter
          ((fun q => (q.1 : Bool)) ∘ fun p =>
            (decide (p.1 < ng ∧ ng ≤ p.2 ∧ p.2 < ng + ne), ρ p.1 p.2))
        = (entryList (ng + ne)).filter
            (fun p => decide (p.1 < ng ∧ ng ≤ p.2 ∧ p.2 < ng + ne)) :=
      List.filter_congr fun p _ => rfl
    rw [hfil, filter_entryList_mask]
    simp only [List.map_map]
    have hL : (((List.range ng).flatMap fun g => (List.range ne).map fun e => (g, e)).map
          fun q : ℕ × ℕ => (q.1, ng + q.2))
        = (List.range ng).flatMap fun g => (List.range ne).map fun e => (g, ng + e) := by
      rw [List.map_flatMap]
      apply List.flatMap_congr
      intro g _
      rw [List.map_map]
      rfl
    have hK : (((List.range ng).flatMap fun g => (List.range ne).map fun e => (g, e)).map
          fun q : ℕ × ℕ => ((dme q.1 q.2 : ℝ) : ℂ) / (E : ℂ) / (eps0 : ℂ))
        = (List.range ng).flatMap fun g =>
            (List.range ne).map fun e => ((dme g e : ℝ) : ℂ) / (E : ℂ) / (eps0 : ℂ) := by
      rw [List.map_flatMap]
      apply List.flatMap_congr
      intro g _
      rw [List.map_map]
      rfl
    rw [← hL, ← hK]
    simp only [List.map_map]
    rw [List.zip_map']
    simp only [List.map_map]
    rw [List.map_flatMap, sum_flatMap_list, sum_list_range_map]
    congr 1
    apply Finset.sum_congr rfl
    intro g _
    rw [List.map_map, sum_list_range_map]
    apply Finset.sum_congr rfl
    intro e _
    simp [div_div]

/-- C7: the Doppler average queries the unbroadened solver once per power
    value, on the velocity-shifted detuning grid k*v shared by every detuning
    index, and the entry at detuning index i and power index p is the sum
    along the velocity axis of the Maxwell-Boltzmann density at w_i/k - v_j
    times the solver output at grid point j, times the resolution 2; the grid
    starts at w.min()/k - 1000 and advances in steps of 2 MHz. -/
theorem C7_doppler_convolution (mass DoppT f_res : ℝ) (solveVec : List ℝ → ℝ → List ℝ)
    (w P : List ℝ) (i p : ℕ) (hi : i < w.length) (hp : p < P.length)
    (hlen : ∀ l x, (solveVec l x).length = l.length) :
    (((solve_w_doppler mass DoppT f_res solveVec w P).getD p []).getD i 0
        = (∑ jj in Finset.range (dopplerGrid (f_res / cLight / 1e6) w).length,
            v_dist mass DoppT (w.getD i 0 / (f_res / cLight / 1e6)
                - (dopplerGrid (f_res / cLight / 1e6) w).getD jj 0)
              * (solveVec ((dopplerGrid (f_res / cLight / 1e6) w).map
                    fun vj => f_res / cLight / 1e6 * vj) (P.getD p 0)).getD jj 0) * 2) ∧
      ∀ jj, jj < (dopplerGrid (f_res / cLight / 1e6) w).length →
        (dopplerGrid (f_res / cLight / 1e6) w).getD jj 0
          = listMin w / (f_res / cLight / 1e6) - 1000 + (jj : ℝ) * 2 := by
  constructor
  · unfold solve_w_doppler
    rw [getD_map _ P 0 [] hp]
    simp only [List.map_map]
    rw [getD_map _ w 0 0 hi]
    simp only [Function.comp_apply]
    rw [zip_mul_sum]
    have hmin : min ((dopplerGrid (f_res / cLight / 1e6) w).map
          (fun vj => v_dist mass DoppT (w.getD i 0 / (f_res / cLight / 1e6) - vj))).length
        (solveVec ((dopplerGrid (f_res / cLight / 1e6) w).map
          fun vj => f_res / cLight / 1e6 * vj) (P.getD p 0)).length
        = (dopplerGrid (f_res / cLight / 1e6) w).length := by
      rw [hlen]
      simp
    rw [hmin]
    congr 1
    apply Finset.sum_congr rfl
    intro jj hjj
    rw [Finset.mem_range] at hjj
    rw [getD_map _ _ 0 0 hjj]
  · intro jj hjj
    unfold dopplerGrid arange at hjj ⊢
    rw [List.length_map, List.length_range] at hjj
    rw [getD_map_range _ _ hjj]

/-- Witness for C7 at a one-point detuning array, one power value and a
    trivial solver oracle. -/
theorem C7_witness :
    (0:ℕ) < [(0:ℝ)].length ∧ (0:ℕ) < [(1:ℝ)].length ∧
      (∀ l : List ℝ, ∀ x : ℝ,
        ((fun (l2 : List ℝ) (_ : ℝ) => l2.map fun _ => (0:ℝ)) l x).length = l.length) ∧
      ((((solve_w_doppler 1 1 1 (fun l2 _ => l2.map fun _ => (0:ℝ)) [0] [1]).getD 0 []).getD 0 0
          = (∑ jj in Finset.range (dopplerGrid ((1:ℝ) / cLight / 1e6) [0]).length,
              v_dist 1 1 (([(0:ℝ)].getD 0 0) / ((1:ℝ) / cLight / 1e6)
                  - (dopplerGrid ((1:ℝ) / cLight / 1e6) [0]).getD jj 0)
                * (((dopplerGrid ((1:ℝ) / cLight / 1e6) [0]).map
                      fun vj => (1:ℝ) / cLight / 1e6 * vj).map fun _ => (0:ℝ)).getD jj 0) * 2) ∧
        ∀ jj, jj < (dopplerGrid ((1:ℝ) / cLight / 1e6) [0]).length →
          (dopplerGrid ((1:ℝ) / cLight / 1e6) [0]).getD jj 0
            = listMin [0] / ((1:ℝ) / cLight / 1e6) - 1000 + (jj : ℝ) * 2) :=
  ⟨by simp, by simp, fun l x => by simp,
    C7_doppler_convolution 1 1 1 (fun l2 _ => l2.map fun _ => (0:ℝ)) [0] [1] 0 0
      (by simp) (by simp) (fun l x => by simp)⟩

end LME
